import Mathlib

/-!
Verification development for the Multi-band MelGAN module
(`tensorflow_tts/models/mb_melgan.py`): the PQMF prototype-filter design,
the cosine-modulated filterbank built by `TFPQMF.__init__`, the shape
semantics of `TFPQMF.analysis` / `TFPQMF.synthesis`, and the generator's
construction checks and inference shape contract.

Real-valued numerics are embedded over `ℝ`; shape arithmetic over `ℕ`.
-/

open Real

namespace MBMelGAN

/-- Modified Bessel function of the first kind of order zero, as the power
series used by `scipy.special.i0` / `numpy.i0` (the window formula's
reference definition): I0(x) = Σ_k ((x/2)^2)^k / (k!)^2. -/
noncomputable def besselI0 (x : ℝ) : ℝ :=
  tsum (fun k : ℕ => ((x / 2) ^ 2) ^ k / ((Nat.factorial k : ℝ)) ^ 2)

lemma besselI0_term_nonneg (x : ℝ) (k : ℕ) :
    0 ≤ ((x / 2) ^ 2) ^ k / ((Nat.factorial k : ℝ)) ^ 2 := by
  positivity

lemma besselI0_summable (x : ℝ) :
    Summable (fun k : ℕ => ((x / 2) ^ 2) ^ k / ((Nat.factorial k : ℝ)) ^ 2) := by
  refine Summable.of_nonneg_of_le (besselI0_term_nonneg x) (fun k => ?_)
    (Real.summable_pow_div_factorial ((x / 2) ^ 2))
  have hfac : (1 : ℝ) ≤ (Nat.factorial k : ℝ) := by
    exact_mod_cast Nat.one_le_iff_ne_zero.mpr (Nat.factorial_ne_zero k)
  have hfacpos : (0 : ℝ) < (Nat.factorial k : ℝ) := lt_of_lt_of_le one_pos hfac
  have hle : (Nat.factorial k : ℝ) ≤ ((Nat.factorial k : ℝ)) ^ 2 := by
    nlinarith
  exact div_le_div_of_nonneg_left (by positivity) hfacpos hle |>.trans_eq rfl

lemma one_le_besselI0 (x : ℝ) : 1 ≤ besselI0 x := by
  have h0 : ((x / 2) ^ 2) ^ (0 : ℕ) / ((Nat.factorial 0 : ℝ)) ^ 2 = 1 := by
    simp
  calc (1 : ℝ) = ((x / 2) ^ 2) ^ (0 : ℕ) / ((Nat.factorial 0 : ℝ)) ^ 2 := h0.symm
    _ ≤ besselI0 x :=
      le_tsum (besselI0_summable x) 0 (fun j _ => besselI0_term_nonneg x j)

lemma besselI0_pos (x : ℝ) : 0 < besselI0 x :=
  lt_of_lt_of_le one_pos (one_le_besselI0 x)

lemma besselI0_ne_zero (x : ℝ) : besselI0 x ≠ 0 :=
  ne_of_gt (besselI0_pos x)

/-- Kaiser window of length `M` with shape parameter `beta`, sample `n`,
following `scipy.signal.windows.kaiser`: windows of length at most 1 are
all-ones; otherwise, with `alpha = (M-1)/2`,
`w[n] = I0(beta * sqrt(1 - ((n - alpha)/alpha)^2)) / I0(beta)`. -/
noncomputable def kaiser (M : ℕ) (beta : ℝ) (n : ℕ) : ℝ :=
  if M ≤ 1 then 1
  else
    besselI0 (beta * Real.sqrt (1 - (((n : ℝ) - ((M : ℝ) - 1) / 2) / (((M : ℝ) - 1) / 2)) ^ 2)) /
      besselI0 beta

/-- Kaiser window value at the exact center of an odd-length window. -/
lemma kaiser_center (taps : ℕ) (beta : ℝ) (htaps : taps % 2 = 0) :
    kaiser (taps + 1) beta (taps / 2) = 1 := by
  rcases Nat.eq_zero_or_pos taps with h0 | hpos
  · subst h0
    simp [kaiser]
  · obtain ⟨m, hm⟩ := (Nat.even_iff.mpr htaps)
    have hM : ¬ (taps + 1 ≤ 1) := by omega
    have hcast : ((taps / 2 : ℕ) : ℝ) - ((taps : ℝ) + 1 - 1) / 2 = 0 := by
      have h2 : taps / 2 = m := by omega
      have htr : (taps : ℝ) = 2 * m := by exact_mod_cast congrArg Nat.cast hm |>.trans (by push_cast; ring)
      rw [h2, htr]
      ring
    unfold kaiser
    rw [if_neg hM]
    have harg : ((taps / 2 : ℕ) : ℝ) - (((taps + 1 : ℕ) : ℝ) - 1) / 2 = 0 := by
      push_cast
      push_cast at hcast
      linarith
    rw [show (((taps / 2 : ℕ) : ℝ) - (((taps + 1 : ℕ) : ℝ) - 1) / 2) /
          ((((taps + 1 : ℕ) : ℝ) - 1) / 2) =
        0 / ((((taps + 1 : ℕ) : ℝ) - 1) / 2) from by rw [harg]]
    rw [zero_div]
    norm_num
    exact div_self (besselI0_ne_zero beta)

/-- Ideal low-pass impulse response with the removable singularity at
`n = taps/2` patched to `cos(0) * cutoff_ratio = cutoff_ratio`, exactly as
`design_prototype_filter` computes `h_i` and then overwrites `h_i[taps//2]`. -/
noncomputable def h_ideal (taps : ℕ) (cutoff_ratio : ℝ) (n : ℕ) : ℝ :=
  if n = taps / 2 then Real.cos 0 * cutoff_ratio
  else
    Real.sin (π * cutoff_ratio * ((n : ℝ) - (taps : ℝ) / 2)) /
      (π * ((n : ℝ) - (taps : ℝ) / 2))

/-- Prototype filter coefficient before assembly into the returned array:
the windowed ideal response `h = h_i * w`. -/
noncomputable def h_proto (taps : ℕ) (cutoff_ratio beta : ℝ) (n : ℕ) : ℝ :=
  h_ideal taps cutoff_ratio n * kaiser (taps + 1) beta n

/-- Embedding of `design_prototype_filter(taps, cutoff_ratio, beta)`:
the two asserts become the guard (failure is `none`, modelling the raised
AssertionError); on success the returned array is the windowed sinc of
length `taps + 1`. -/
noncomputable def design_prototype_filter (taps : ℕ) (cutoff_ratio beta : ℝ) :
    Option (List ℝ) :=
  if taps % 2 = 0 ∧ 0 < cutoff_ratio ∧ cutoff_ratio < 1 then
    some ((List.range (taps + 1)).map (fun n => h_proto taps cutoff_ratio beta n))
  else none

/-- Analysis filterbank row `k`, entry `n`, from `TFPQMF.__init__`:
`h_analysis[k] = 2 * h_proto * cos((2k+1) * (pi/(2*subbands)) * (n - taps/2) + (-1)^k * pi/4)`. -/
noncomputable def h_analysis (subbands taps : ℕ) (cutoff_ratio beta : ℝ) (k n : ℕ) : ℝ :=
  2 * h_proto taps cutoff_ratio beta n *
    Real.cos ((2 * (k : ℝ) + 1) * (π / (2 * (subbands : ℝ))) * ((n : ℝ) - (taps : ℝ) / 2) +
      (-1) ^ k * π / 4)

/-- Synthesis filterbank row `k`, entry `n`, from `TFPQMF.__init__`:
same modulation with the per-sub-band phase offset subtracted. -/
noncomputable def h_synthesis (subbands taps : ℕ) (cutoff_ratio beta : ℝ) (k n : ℕ) : ℝ :=
  2 * h_proto taps cutoff_ratio beta n *
    Real.cos ((2 * (k : ℝ) + 1) * (π / (2 * (subbands : ℝ))) * ((n : ℝ) - (taps : ℝ) / 2) -
      (-1) ^ k * π / 4)

/-- Rank-3 tensor as dimensions plus an entry function, for the
convolution-ready coefficient layouts built in `TFPQMF.__init__`. -/
structure Tensor3 where
  d0 : ℕ
  d1 : ℕ
  d2 : ℕ
  entry : ℕ → ℕ → ℕ → ℝ

/-- Embedding of `np.expand_dims(h, 1)` on a `(d0, d1)` matrix. -/
def expandDimsAxis1 (d0 d1 : ℕ) (f : ℕ → ℕ → ℝ) : Tensor3 :=
  ⟨d0, 1, d1, fun i _ k => f i k⟩

/-- Embedding of `np.expand_dims(h, 0)` on a `(d0, d1)` matrix. -/
def expandDimsAxis0 (d0 d1 : ℕ) (f : ℕ → ℕ → ℝ) : Tensor3 :=
  ⟨1, d0, d1, fun _ j k => f j k⟩

/-- Embedding of `np.transpose(t, (2, 1, 0))`. -/
def transpose210 (t : Tensor3) : Tensor3 :=
  ⟨t.d2, t.d1, t.d0, fun i j k => t.entry k j i⟩

/-- The analysis filter tensor of `TFPQMF.__init__`:
`np.transpose(np.expand_dims(h_analysis, 1), (2, 1, 0))`. -/
noncomputable def analysis_filter (subbands taps : ℕ) (cutoff_ratio beta : ℝ) : Tensor3 :=
  transpose210 (expandDimsAxis1 subbands (taps + 1) (h_analysis subbands taps cutoff_ratio beta))

/-- The synthesis filter tensor of `TFPQMF.__init__`:
`np.transpose(np.expand_dims(h_synthesis, 0), (2, 1, 0))`. -/
noncomputable def synthesis_filter (subbands taps : ℕ) (cutoff_ratio beta : ℝ) : Tensor3 :=
  transpose210 (expandDimsAxis0 subbands (taps + 1) (h_synthesis subbands taps cutoff_ratio beta))

/-- The routing (`updown_filter`) tensor of `TFPQMF.__init__`: zeros of
shape `(subbands, subbands, subbands)` with `updown_filter[0, k, k] = 1.0`
for each `k < subbands`. -/
def updown_filter (subbands : ℕ) : Tensor3 :=
  ⟨subbands, subbands, subbands, fun i j k => if i = 0 ∧ j = k ∧ k < subbands then 1 else 0⟩

/-- Output length of `tf.nn.conv1d(..., stride, padding="VALID")` on an
input of time length `T` with a filter of width `fw` (valid when `fw ≤ T`):
`(T - fw) / stride + 1` with floor division. -/
def conv1dValidLen (T fw stride : ℕ) : ℕ :=
  (T - fw) / stride + 1

/-- Time length returned by `TFPQMF.analysis` on input time length `T`:
pad by `taps//2` on each side, convolve (VALID, stride 1) with the
width-`taps+1` analysis filter, then convolve (VALID, stride `subbands`)
with the width-`subbands` updown filter. -/
def analysis_time_len (subbands taps T : ℕ) : ℕ :=
  conv1dValidLen (conv1dValidLen (T + 2 * (taps / 2)) (taps + 1) 1) subbands subbands

/-- Output channel count of `TFPQMF.analysis`: the out-channel dimension of
the updown filter, i.e. `subbands`. -/
def analysis_channels (subbands : ℕ) : ℕ := subbands

/-- Time length returned by `TFPQMF.synthesis` on input time length `T`:
the transposed convolution is given explicit `output_shape` time
`T * subbands`, then pad by `taps//2` on each side and convolve (VALID,
stride 1) with the width-`taps+1` synthesis filter. -/
def synthesis_time_len (subbands taps T : ℕ) : ℕ :=
  conv1dValidLen (T * subbands + 2 * (taps / 2)) (taps + 1) 1

/-- Output channel count of `TFPQMF.synthesis`: the out-channel dimension
of the synthesis filter, i.e. 1. -/
def synthesis_channels : ℕ := 1

/-- Embedding of the asserts at the top of `MBMelGANGenerator.__init__`:
construction succeeds only when `filters >= prod(upsample_scales)` and
`filters % 2^len(upsample_scales) == 0`; an assert failure is `none`. -/
def MBMelGANGenerator_init (filters : ℕ) (upsample_scales : List ℕ) : Option Unit :=
  if upsample_scales.prod ≤ filters ∧ filters % 2 ^ upsample_scales.length = 0 then
    some ()
  else none

/-- Modelled from the spec: the time-length behaviour of the generator
layers whose code lives outside this file's source (`TFReflectionPad1d`,
`TFResidualStack`, `TFConvTranspose1d` from `tensorflow_tts.modules`).
Per spec section 4.4: reflection-pad by `(kernel_size - 1)/2` on each side
then convolve (a Keras `Conv1D` with default valid padding); each
upsampling stage multiplies time length by its scale and the residual
stacks preserve time length; the final activation, reflection-pad and
convolution mirror the first block. -/
def melgan_time_len (kernel_size : ℕ) (upsample_scales : List ℕ) (T : ℕ) : ℕ :=
  let p := (kernel_size - 1) / 2
  let t0 := conv1dValidLen (T + 2 * p) kernel_size 1
  let t1 := upsample_scales.foldl (fun t u => t * u) t0
  conv1dValidLen (t1 + 2 * p) kernel_size 1

/-- Shape of `MBMelGANGenerator.inference`: the melgan stack output
(time `melgan_time_len`, channels `out_channels = subbands`) is fed to
`TFPQMF.synthesis`, per `inference`'s body. Returns (time, channels). -/
def inference_shape (subbands taps kernel_size : ℕ) (upsample_scales : List ℕ) (T : ℕ) :
    ℕ × ℕ :=
  (synthesis_time_len subbands taps (melgan_time_len kernel_size upsample_scales T),
    synthesis_channels)

/-- Kaiser windows of odd length `taps + 1` are symmetric about their
center: sample `taps - n` equals sample `n`. -/
lemma kaiser_symm (taps : ℕ) (beta : ℝ) (n : ℕ) (hn : n ≤ taps) :
    kaiser (taps + 1) beta (taps - n) = kaiser (taps + 1) beta n := by
  rcases Nat.eq_zero_or_pos taps with h0 | hpos
  · subst h0
    have : n = 0 := Nat.le_zero.mp hn
    subst this
    rfl
  · have hM : ¬ (taps + 1 ≤ 1) := by omega
    unfold kaiser
    rw [if_neg hM, if_neg hM]
    have harg : (((taps - n : ℕ) : ℝ) - (((taps + 1 : ℕ) : ℝ) - 1) / 2) /
          ((((taps + 1 : ℕ) : ℝ) - 1) / 2)
        = -((((n : ℕ) : ℝ) - (((taps + 1 : ℕ) : ℝ) - 1) / 2) /
          ((((taps + 1 : ℕ) : ℝ) - 1) / 2)) := by
      rw [Nat.cast_sub hn]
      push_cast
      ring
    rw [harg, neg_sq]

/-- The patched ideal low-pass response is symmetric about `taps / 2`
when `taps` is even. -/
lemma h_ideal_symm (taps : ℕ) (c : ℝ) (n : ℕ) (he : taps % 2 = 0) (hn : n ≤ taps) :
    h_ideal taps c (taps - n) = h_ideal taps c n := by
  by_cases hcen : n = taps / 2
  · have hcen2 : taps - n = taps / 2 := by omega
    rw [hcen2, hcen]
  · have hcen2 : taps - n ≠ taps / 2 := by omega
    unfold h_ideal
    rw [if_neg hcen2, if_neg hcen]
    have hc : ((taps - n : ℕ) : ℝ) - (taps : ℝ) / 2 = -(((n : ℕ) : ℝ) - (taps : ℝ) / 2) := by
      rw [Nat.cast_sub hn]
      ring
    rw [hc, mul_neg, Real.sin_neg, mul_neg, neg_div_neg_eq]

/-- The windowed prototype coefficients are symmetric about `taps / 2`
when `taps` is even. -/
lemma h_proto_symm (taps : ℕ) (c b : ℝ) (n : ℕ) (he : taps % 2 = 0) (hn : n ≤ taps) :
    h_proto taps c b (taps - n) = h_proto taps c b n := by
  unfold h_proto
  rw [h_ideal_symm taps c n he hn, kaiser_symm taps b n hn]

/-- The center coefficient of the windowed prototype equals the cutoff
ratio exactly when `taps` is even. -/
lemma h_proto_center (taps : ℕ) (c b : ℝ) (he : taps % 2 = 0) :
    h_proto taps c b (taps / 2) = c := by
  unfold h_proto h_ideal
  rw [if_pos rfl, kaiser_center taps b he, Real.cos_zero, one_mul, mul_one]

/-- Successful runs of the prototype design return exactly the windowed
sinc list of length `taps + 1`. -/
lemma design_prototype_filter_eq (taps : ℕ) (c b : ℝ)
    (he : taps % 2 = 0) (h0 : 0 < c) (h1 : c < 1) :
    design_prototype_filter taps c b =
      some ((List.range (taps + 1)).map (fun n => h_proto taps c b n)) := by
  unfold design_prototype_filter
  rw [if_pos ⟨he, h0, h1⟩]

/-- C1: for every even `taps` and every `cutoff_ratio` with
`0 < cutoff_ratio < 1`, `design_prototype_filter` returns the sequence
`h[n] = sin(pi * cutoff_ratio * (n - taps/2)) / (pi * (n - taps/2))`
multiplied elementwise by a Kaiser window of length `taps + 1` with shape
parameter `beta`, for `n = 0..taps`, except at the singular index
`n = taps/2` where the pre-window sample equals `cutoff_ratio`; in
particular the returned center coefficient equals `cutoff_ratio` exactly
(the Kaiser window equals 1 at its center). -/
theorem design_prototype_filter_formula (taps : ℕ) (c b : ℝ)
    (he : taps % 2 = 0) (h0 : 0 < c) (h1 : c < 1) :
    ∃ h, design_prototype_filter taps c b = some h ∧
      h.length = taps + 1 ∧
      (∀ n, n < taps + 1 → n ≠ taps / 2 →
        h[n]? = some (Real.sin (π * c * ((n : ℝ) - (taps : ℝ) / 2)) /
          (π * ((n : ℝ) - (taps : ℝ) / 2)) * kaiser (taps + 1) b n)) ∧
      h_ideal taps c (taps / 2) = c ∧
      h[taps / 2]? = some c := by
  refine ⟨_, design_prototype_filter_eq taps c b he h0 h1, by simp, ?_, ?_, ?_⟩
  · intro n hn hne
    have hmap : ((List.range (taps + 1)).map (fun m => h_proto taps c b m))[n]? =
        some (h_proto taps c b n) := by
      simp [List.getElem?_map, List.getElem?_range, hn]
    rw [hmap]
    unfold h_proto h_ideal
    rw [if_neg hne]
  · unfold h_ideal
    rw [if_pos rfl, Real.cos_zero, one_mul]
  · have hlt : taps / 2 < taps + 1 := by omega
    have hmap : ((List.range (taps + 1)).map (fun m => h_proto taps c b m))[taps / 2]? =
        some (h_proto taps c b (taps / 2)) := by
      simp [List.getElem?_map, List.getElem?_range, hlt]
    rw [hmap, h_proto_center taps c b he]

/-- C1 witness at `taps = 62`, `cutoff_ratio = 1/2`, `beta = 9`. -/
theorem design_prototype_filter_formula_witness :
    ∃ h, design_prototype_filter 62 (1 / 2 : ℝ) 9 = some h ∧
      h.length = 62 + 1 ∧
      (∀ n : ℕ, n < 62 + 1 → n ≠ 62 / 2 →
        h[n]? = some (Real.sin (π * (1 / 2 : ℝ) * ((n : ℝ) - (62 : ℝ) / 2)) /
          (π * ((n : ℝ) - (62 : ℝ) / 2)) * kaiser (62 + 1) 9 n)) ∧
      h_ideal 62 (1 / 2 : ℝ) (62 / 2) = 1 / 2 ∧
      h[62 / 2]? = some (1 / 2 : ℝ) :=
  design_prototype_filter_formula 62 (1 / 2) 9 (by norm_num) (by norm_num) (by norm_num)

/-- C6: for every even `taps` and every `0 < cutoff_ratio < 1`,
`design_prototype_filter` returns exactly `taps + 1` values, and the
sequence is symmetric about the center index: `h[n] = h[taps - n]` for
every `n` in `0..taps` (each value is a well-defined real number in this
embedding, hence finite). -/
theorem design_prototype_filter_symmetric (taps : ℕ) (c b : ℝ)
    (he : taps % 2 = 0) (h0 : 0 < c) (h1 : c < 1) :
    ∃ h, design_prototype_filter taps c b = some h ∧
      h.length = taps + 1 ∧
      ∀ n, n ≤ taps → h[n]? = h[taps - n]? := by
  refine ⟨_, design_prototype_filter_eq taps c b he h0 h1, by simp, ?_⟩
  intro n hn
  have hlt : n < taps + 1 := by omega
  have hlt2 : taps - n < taps + 1 := by omega
  have hmap : ((List.range (taps + 1)).map (fun m => h_proto taps c b m))[n]? =
      some (h_proto taps c b n) := by
    simp [List.getElem?_map, List.getElem?_range, hlt]
  have hmap2 : ((List.range (taps + 1)).map (fun m => h_proto taps c b m))[taps - n]? =
      some (h_proto taps c b (taps - n)) := by
    simp [List.getElem?_map, List.getElem?_range, hlt2]
  rw [hmap, hmap2, h_proto_symm taps c b n he hn]

/-- C6 witness at `taps = 62`, `cutoff_ratio = 1/2`, `beta = 9`. -/
theorem design_prototype_filter_symmetric_witness :
    ∃ h, design_prototype_filter 62 (1 / 2 : ℝ) 9 = some h ∧
      h.length = 62 + 1 ∧
      ∀ n : ℕ, n ≤ 62 → h[n]? = h[62 - n]? :=
  design_prototype_filter_symmetric 62 (1 / 2) 9 (by norm_num) (by norm_num) (by norm_num)

/-- C8: `design_prototype_filter` fails (the asserts raise) when `taps`
is odd or when `cutoff_ratio ≤ 0` or `cutoff_ratio ≥ 1`, and succeeds
exactly when `taps` is even and `0 < cutoff_ratio < 1`. -/
theorem design_prototype_filter_precondition (taps : ℕ) (c b : ℝ) :
    (design_prototype_filter taps c b).isSome = true ↔
      (taps % 2 = 0 ∧ 0 < c ∧ c < 1) := by
  unfold design_prototype_filter
  split <;> simp_all

/-- C9: `MBMelGANGenerator` construction fails whenever
`filters < prod(upsample_scales)` or `filters` is not divisible by
`2^len(upsample_scales)`, and succeeds exactly when both asserts hold. -/
theorem MBMelGANGenerator_init_precondition (filters : ℕ) (upsample_scales : List ℕ) :
    (MBMelGANGenerator_init filters upsample_scales).isSome = true ↔
      (upsample_scales.prod ≤ filters ∧ filters % 2 ^ upsample_scales.length = 0) := by
  unfold MBMelGANGenerator_init
  split <;> simp_all

/-- C2: for every sub-band `k < subbands` and tap index `n ≤ taps`, the
filterbank built by `TFPQMF.__init__` satisfies
`h_analysis[k][n] = 2 * h_proto[n] * cos((2k+1) * (pi/(2*subbands)) * (n - taps/2) + (-1)^k * pi/4)`
and
`h_synthesis[k][n] = 2 * h_proto[n] * cos((2k+1) * (pi/(2*subbands)) * (n - taps/2) - (-1)^k * pi/4)`,
read off the assembled convolution tensors; the two directions differ only
in the sign of the per-sub-band phase offset. -/
theorem TFPQMF_filterbank_modulation (subbands taps : ℕ) (c b : ℝ) (k n : ℕ)
    (hk : k < subbands) (hn : n ≤ taps) :
    (analysis_filter subbands taps c b).entry n 0 k =
      2 * h_proto taps c b n *
        Real.cos ((2 * (k : ℝ) + 1) * (π / (2 * (subbands : ℝ))) * ((n : ℝ) - (taps : ℝ) / 2) +
          (-1) ^ k * π / 4) ∧
    (synthesis_filter subbands taps c b).entry n k 0 =
      2 * h_proto taps c b n *
        Real.cos ((2 * (k : ℝ) + 1) * (π / (2 * (subbands : ℝ))) * ((n : ℝ) - (taps : ℝ) / 2) -
          (-1) ^ k * π / 4) :=
  ⟨rfl, rfl⟩

/-- C2 witness at `subbands = 4`, `taps = 62`, `cutoff_ratio = 3/20`,
`beta = 9`, `k = 0`, `n = 0`. -/
theorem TFPQMF_filterbank_modulation_witness :
    (analysis_filter 4 62 (3 / 20 : ℝ) 9).entry 0 0 0 =
      2 * h_proto 62 (3 / 20 : ℝ) 9 0 *
        Real.cos ((2 * ((0 : ℕ) : ℝ) + 1) * (π / (2 * ((4 : ℕ) : ℝ))) *
          (((0 : ℕ) : ℝ) - ((62 : ℕ) : ℝ) / 2) + (-1) ^ (0 : ℕ) * π / 4) ∧
    (synthesis_filter 4 62 (3 / 20 : ℝ) 9).entry 0 0 0 =
      2 * h_proto 62 (3 / 20 : ℝ) 9 0 *
        Real.cos ((2 * ((0 : ℕ) : ℝ) + 1) * (π / (2 * ((4 : ℕ) : ℝ))) *
          (((0 : ℕ) : ℝ) - ((62 : ℕ) : ℝ) / 2) - (-1) ^ (0 : ℕ) * π / 4) :=
  TFPQMF_filterbank_modulation 4 62 (3 / 20) 9 0 0 (by decide) (by decide)

/-- C7: for `subbands = 4`, `taps = 62`, `cutoff_ratio = 0.15`,
`beta = 9.0`, the analysis filter tensor has shape (63, 1, 4), the
synthesis filter tensor has shape (63, 4, 1), and the routing tensor has
shape (4, 4, 4) and is zero everywhere except the entries at
`[0, k, k]`, each equal to 1.0. -/
theorem TFPQMF_tensor_shapes :
    (analysis_filter 4 62 (0.15 : ℝ) (9.0 : ℝ)).d0 = 63 ∧
    (analysis_filter 4 62 (0.15 : ℝ) (9.0 : ℝ)).d1 = 1 ∧
    (analysis_filter 4 62 (0.15 : ℝ) (9.0 : ℝ)).d2 = 4 ∧
    (synthesis_filter 4 62 (0.15 : ℝ) (9.0 : ℝ)).d0 = 63 ∧
    (synthesis_filter 4 62 (0.15 : ℝ) (9.0 : ℝ)).d1 = 4 ∧
    (synthesis_filter 4 62 (0.15 : ℝ) (9.0 : ℝ)).d2 = 1 ∧
    (updown_filter 4).d0 = 4 ∧ (updown_filter 4).d1 = 4 ∧ (updown_filter 4).d2 = 4 ∧
    ∀ i j k : Fin 4, (updown_filter 4).entry i j k =
      if (i : ℕ) = 0 ∧ (j : ℕ) = (k : ℕ) then 1 else 0 := by
  refine ⟨rfl, rfl, rfl, rfl, rfl, rfl, rfl, rfl, rfl, ?_⟩
  intro i j k
  by_cases h : (i : ℕ) = 0 ∧ (j : ℕ) = (k : ℕ)
  · have h3 : (i : ℕ) = 0 ∧ (j : ℕ) = (k : ℕ) ∧ (k : ℕ) < 4 := ⟨h.1, h.2, k.isLt⟩
    simp only [updown_filter, if_pos h3, if_pos h]
  · have h3 : ¬ ((i : ℕ) = 0 ∧ (j : ℕ) = (k : ℕ) ∧ (k : ℕ) < 4) := by tauto
    simp only [updown_filter, if_neg h3, if_neg h]

/-- C10: for every `subbands ≥ 1`, even `taps`, `0 < cutoff_ratio < 1`,
`k < subbands` and `n ≤ taps`, each synthesis sub-band filter is the
time-reversal of the corresponding analysis filter:
`h_synthesis[k][n] = h_analysis[k][taps - n]` — a consequence of the
prototype's symmetry and the opposite phase signs in the modulation. -/
theorem synthesis_filter_time_reversal (subbands taps : ℕ) (c b : ℝ) (k n : ℕ)
    (hs : 1 ≤ subbands) (he : taps % 2 = 0) (h0 : 0 < c) (h1 : c < 1)
    (hk : k < subbands) (hn : n ≤ taps) :
    h_synthesis subbands taps c b k n = h_analysis subbands taps c b k (taps - n) := by
  unfold h_synthesis h_analysis
  rw [h_proto_symm taps c b n he hn]
  congr 1
  have hcast : ((taps - n : ℕ) : ℝ) = (taps : ℝ) - (n : ℝ) := Nat.cast_sub hn
  rw [hcast]
  rw [show (2 * (k : ℝ) + 1) * (π / (2 * (subbands : ℝ))) *
        (((taps : ℝ) - (n : ℝ)) - (taps : ℝ) / 2) + (-1) ^ k * π / 4
      = -((2 * (k : ℝ) + 1) * (π / (2 * (subbands : ℝ))) * ((n : ℝ) - (taps : ℝ) / 2) -
        (-1) ^ k * π / 4) from by ring]
  rw [Real.cos_neg]

/-- C10 witness at `subbands = 4`, `taps = 62`, `cutoff_ratio = 3/20`,
`beta = 9`, `k = 1`, `n = 5`. -/
theorem synthesis_filter_time_reversal_witness :
    h_synthesis 4 62 (3 / 20 : ℝ) 9 1 5 = h_analysis 4 62 (3 / 20 : ℝ) 9 1 (62 - 5) :=
  synthesis_filter_time_reversal 4 62 (3 / 20) 9 1 5 (by decide) (by decide)
    (by norm_num) (by norm_num) (by decide) (by decide)

/-- C3 counterexample: at `subbands = 4`, `taps = 62`, input time length
`T = 100`, `TFPQMF.analysis` yields time length 25 (pad to 162, the
width-63 filter conv brings it back to 100, decimation by 4 gives 25),
while the claimed formula `floor((T + taps)/subbands)` gives 40. -/
theorem analysis_time_len_counterexample :
    analysis_time_len 4 62 100 = 25 ∧ (100 + 62) / 4 = 40 ∧
      analysis_time_len 4 62 100 ≠ (100 + 62) / 4 := by
  decide

/-- C3 amended: `analysis` on input time length `T` yields time length
`floor(T / subbands)` (the symmetric padding is exactly consumed by the
width-`taps+1` valid convolution), for even `taps` and
`0 < subbands ≤ T`; `synthesis` on input time length `T'` yields
`T' * subbands`. -/
theorem pqmf_shape_contract (subbands taps T Ts : ℕ)
    (he : taps % 2 = 0) (hs : 0 < subbands) (hT : subbands ≤ T) (hTs : 0 < Ts) :
    analysis_time_len subbands taps T = T / subbands ∧
    synthesis_time_len subbands taps Ts = Ts * subbands := by
  constructor
  · unfold analysis_time_len conv1dValidLen
    have h2 : 2 * (taps / 2) = taps := by omega
    rw [h2]
    have hT1 : 1 ≤ T := le_trans hs hT
    have hinner : (T + taps - (taps + 1)) / 1 + 1 = T := by omega
    rw [hinner]
    exact (Nat.div_eq_sub_div hs hT).symm
  · unfold synthesis_time_len conv1dValidLen
    have h2 : 2 * (taps / 2) = taps := by omega
    rw [h2]
    have hX : 1 ≤ Ts * subbands :=
      Nat.one_le_iff_ne_zero.mpr (Nat.mul_ne_zero (by omega) (by omega))
    omega

/-- C3 amended witness at `subbands = 4`, `taps = 62`, `T = 100`,
`Ts = 25`. -/
theorem pqmf_shape_contract_witness :
    analysis_time_len 4 62 100 = 100 / 4 ∧ synthesis_time_len 4 62 25 = 25 * 4 :=
  pqmf_shape_contract 4 62 100 25 (by decide) (by decide) (by decide) (by decide)

/-- Folding multiplication over a list from an arbitrary seed multiplies
the seed by the list product. -/
lemma foldl_mul_eq_mul_prod (l : List ℕ) (t : ℕ) :
    l.foldl (fun a u => a * u) t = t * l.prod := by
  induction l generalizing t with
  | nil => simp
  | cons u tl ih => simp [List.foldl_cons, ih, List.prod_cons, mul_assoc]

/-- C4 counterexample: with `subbands = 4`, `taps = 62`,
`kernel_size = 7`, `upsample_scales = [8, 8, 4]` and a mel input of time
length 100, the melgan stack outputs time length 25600, and
`pqmf.synthesis` in `inference` multiplies by `subbands` again, yielding
102400 — not the claimed `100 * prod(upsample_scales) = 25600`. -/
theorem inference_shape_counterexample :
    inference_shape 4 62 7 [8, 8, 4] 100 = (102400, 1) ∧
      100 * ([8, 8, 4] : List ℕ).prod = 25600 ∧
      (inference_shape 4 62 7 [8, 8, 4] 100).1 ≠ 100 * ([8, 8, 4] : List ℕ).prod := by
  decide

/-- C4 amended: for odd `kernel_size`, even `taps`, positive `subbands`,
positive input length `T` and positive upsample-scale product,
`inference` returns a waveform of shape
(batch, `T * prod(upsample_scales) * subbands`, 1): the generator
upsamples by the scale product and the PQMF synthesis stage multiplies
the time length by `subbands` and collapses to one channel. -/
theorem inference_shape_contract (subbands taps kernel_size : ℕ)
    (upsample_scales : List ℕ) (T : ℕ)
    (he : taps % 2 = 0) (hk : kernel_size % 2 = 1) (hs : 0 < subbands) (hT : 0 < T)
    (hp : 0 < upsample_scales.prod) :
    inference_shape subbands taps kernel_size upsample_scales T =
      (T * upsample_scales.prod * subbands, 1) := by
  have ht0 : conv1dValidLen (T + 2 * ((kernel_size - 1) / 2)) kernel_size 1 = T := by
    unfold conv1dValidLen
    omega
  have hprod1 : 1 ≤ T * upsample_scales.prod :=
    Nat.one_le_iff_ne_zero.mpr (Nat.mul_ne_zero (by omega) (by omega))
  have ht1 : conv1dValidLen (T * upsample_scales.prod + 2 * ((kernel_size - 1) / 2))
      kernel_size 1 = T * upsample_scales.prod := by
    unfold conv1dValidLen
    omega
  have hmel : melgan_time_len kernel_size upsample_scales T = T * upsample_scales.prod := by
    show conv1dValidLen
        (upsample_scales.foldl (fun t u => t * u)
          (conv1dValidLen (T + 2 * ((kernel_size - 1) / 2)) kernel_size 1) +
          2 * ((kernel_size - 1) / 2)) kernel_size 1 = T * upsample_scales.prod
    rw [ht0, foldl_mul_eq_mul_prod, ht1]
  have hfin : synthesis_time_len subbands taps (T * upsample_scales.prod) =
      T * upsample_scales.prod * subbands := by
    unfold synthesis_time_len conv1dValidLen
    have h2 : 2 * (taps / 2) = taps := by omega
    have h1s : 1 ≤ T * upsample_scales.prod * subbands :=
      Nat.one_le_iff_ne_zero.mpr (Nat.mul_ne_zero (by omega) (by omega))
    omega
  unfold inference_shape
  rw [hmel, hfin]
  rfl

/-- C4 amended witness at `subbands = 4`, `taps = 62`, `kernel_size = 7`,
`upsample_scales = [8, 8, 4]`, `T = 100`: output time length
`100 * 256 * 4 = 102400` with one channel. -/
theorem inference_shape_contract_witness :
    inference_shape 4 62 7 [8, 8, 4] 100 = (100 * ([8, 8, 4] : List ℕ).prod * 4, 1) :=
  inference_shape_contract 4 62 7 [8, 8, 4] 100 (by decide) (by decide) (by decide)
    (by decide) (by decide)

end MBMelGAN
